import Mathlib

/-!
Verification of the documentation acquisition pipeline in `src/utils/docs.tsx`.

The source is a small TypeScript module that clones documentation repositories,
crawls their trees for markdown files, parses front matter, sanitizes HTML
comments, and aggregates the documents into a slug-keyed map.  JavaScript
strings are embedded as `List Char` (written `JStr`); the fixed regular
expressions of the source (`MARKDOWN_REGEX`, `FRONTMATTER_REGEX`,
`COMMENT_REGEX`) are embedded as executable matchers specialised to those
patterns, with JavaScript `String.replace` scan semantics (leftmost match,
alternative order, lazy quantifiers).  The `gray-matter` dependency is
modelled from its published algorithm, with the YAML payload restricted to
plain `key: value` lines (the only form the claims exercise).
-/

/-- JavaScript strings, embedded as lists of characters. -/
abbrev JStr := List Char

/-- Decides whether `p` is a prefix of `s` (JS `String.startsWith`). -/
def startsWithB : JStr → JStr → Bool
  | [], _ => true
  | _ :: _, [] => false
  | p :: ps, c :: cs => if p = c then startsWithB ps cs else false

/-- Decides whether `p` is a suffix of `s` (JS `String.endsWith`). -/
def endsWithB (p s : JStr) : Bool :=
  startsWithB p.reverse s.reverse

/-- Splits a string on a separator character, JS `String.split` semantics:
the empty string yields `[""]`, adjacent separators yield empty segments. -/
def splitOnChar (sep : Char) : JStr → List JStr
  | [] => [[]]
  | c :: t =>
    if c = sep then [] :: splitOnChar sep t
    else
      match splitOnChar sep t with
      | [] => [[c]]
      | s :: rest => (c :: s) :: rest

/-- Joins segments with `/` (JS `Array.join`, as used for the map key). -/
def joinSlash : List JStr → JStr
  | [] => []
  | [x] => x
  | x :: rest => x ++ '/' :: joinSlash rest

/-- Applies `f` to the last element of a list, if any. -/
def modifyLast (f : JStr → JStr) : List JStr → List JStr
  | [] => []
  | [x] => [f x]
  | x :: rest => x :: modifyLast f rest

/-- JS `String.replace` with a plain-string pattern: replaces the first
occurrence of `pat` in `s` by `repl`, or returns `s` unchanged. -/
def replaceFirst : JStr → JStr → JStr → JStr
  | s, pat, repl =>
    if startsWithB pat s then repl ++ s.drop pat.length
    else
      match s with
      | [] => []
      | c :: rest => c :: replaceFirst rest pat repl

/-- Embeds `MARKDOWN_REGEX = /\.mdx?$/` used as a `replace` pattern: strips a
trailing `.mdx` or `.md` extension (the regex matches at most once, at the
end of the string, with a greedy optional `x`). -/
def stripMdExt (s : JStr) : JStr :=
  if endsWithB ".mdx".data s then s.take (s.length - 4)
  else if endsWithB ".md".data s then s.take (s.length - 3)
  else s

/-- Embeds `MARKDOWN_REGEX.test`: the path ends in `.md` or `.mdx`. -/
def isMarkdownPath (s : JStr) : Bool :=
  endsWithB ".md".data s || endsWithB ".mdx".data s

/-- Membership of regex class `[\s\n]` (ASCII whitespace). -/
def isWs (c : Char) : Bool :=
  c = ' ' || c = '\t' || c = '\n' || c = '\r' || c = '\x0b' || c = '\x0c'

/-- Trims ASCII whitespace from both ends (JS `String.trim`). -/
def trimStr (s : JStr) : JStr :=
  ((s.dropWhile isWs).reverse.dropWhile isWs).reverse

/-- Index of the first occurrence of `pat` as a contiguous substring
(JS `String.indexOf`). -/
def firstIndexOfSub (pat : JStr) : JStr → Option Nat
  | [] => if startsWithB pat [] then some 0 else none
  | c :: rest =>
    if startsWithB pat (c :: rest) then some 0
    else (firstIndexOfSub pat rest).map (· + 1)

/-- Decides whether `pat` occurs as a contiguous substring of `l`. -/
def containsSub (pat l : JStr) : Bool :=
  (firstIndexOfSub pat l).isSome

/-- Lazy `[\s\n]*?` followed by a required `target`: the least number of
leading whitespace characters of `l` after which `target` is a prefix. -/
def wsThen (target : JStr) : JStr → Option Nat
  | [] => if startsWithB target [] then some 0 else none
  | c :: rest =>
    if startsWithB target (c :: rest) then some 0
    else if isWs c then (wsThen target rest).map (· + 1)
    else none

/-- Embeds one match attempt of
`FRONTMATTER_REGEX = /^<!--[\s\n]*?(?=---)|(?!---)[\s\n]*?-->/g` at a
position of the subject (`atStart` true only at index 0, since there is no
`m` flag): returns the length of the match, alternatives tried in order.
The first alternative consumes `<!--` plus the lazy whitespace (the `---`
lookahead consumes nothing); the second consumes the whitespace and `-->`. -/
def fmMatch (atStart : Bool) (l : JStr) : Option Nat :=
  match (if atStart && startsWithB "<!--".data l
         then (wsThen "---".data (l.drop 4)).map (4 + ·)
         else none) with
  | some n => some n
  | none =>
    if startsWithB "---".data l then none
    else (wsThen "-->".data l).map (· + 3)

/-- Embeds one match attempt of
`COMMENT_REGEX = /<!--(.|\n)*?-->|<!--[^\n]*?\n/g` at a position: a comment
opener followed (lazily) by the nearest `-->`, else by the nearest newline. -/
def commentMatch (_atStart : Bool) (l : JStr) : Option Nat :=
  if startsWithB "<!--".data l then
    match firstIndexOfSub "-->".data (l.drop 4) with
    | some j => some (4 + j + 3)
    | none =>
      match firstIndexOfSub "\n".data (l.drop 4) with
      | some m => some (4 + m + 1)
      | none => none
  else none

/-- JS global `String.replace(regex, '')` driver: scans left to right, deletes
each match and resumes after it.  `fuel` bounds the recursion; every matcher
used here consumes at least one character per match, so `length + 1` fuel is
always enough. -/
def scanReplace (matchAt : Bool → JStr → Option Nat) : Nat → Bool → JStr → JStr
  | 0, _, l => l
  | _ + 1, _, [] => []
  | fuel + 1, atStart, c :: rest =>
    match matchAt atStart (c :: rest) with
    | some n => scanReplace matchAt fuel false ((c :: rest).drop n)
    | none => c :: scanReplace matchAt fuel false rest

/-- Applies `FRONTMATTER_REGEX` globally with empty replacement
(the first sanitation pass of `getDocs`). -/
def replaceAllFM (l : JStr) : JStr :=
  scanReplace fmMatch (l.length + 1) true l

/-- Applies `COMMENT_REGEX` globally with empty replacement
(the second sanitation pass of `getDocs`). -/
def replaceAllComment (l : JStr) : JStr :=
  scanReplace commentMatch (l.length + 1) true l

/-- The two sequential sanitation passes applied to the body in `getDocs`
(lines 92–96 of `src/utils/docs.tsx`). -/
def sanitizeContent (l : JStr) : JStr :=
  replaceAllComment (replaceAllFM l)

/-- Modelled from the spec and the `gray-matter`/`js-yaml` dependency: parses
the YAML-like front-matter block as plain `key: value` lines, skipping blank
and `#`-comment lines. -/
def parseYamlKV (l : JStr) : List (JStr × JStr) :=
  (splitOnChar '\n' l).filterMap fun line =>
    let t := trimStr line
    if t = [] then none
    else if t.head? = some '#' then none
    else
      match firstIndexOfSub ":".data t with
      | none => none
      | some i => some (trimStr (t.take i), trimStr (t.drop (i + 1)))

/-- Modelled from the `gray-matter` dependency (its published algorithm with
the default `---` delimiters): front matter is parsed only when the input
starts with `---` not followed by a fourth `-`; the block runs to the first
`\n---`; the remaining content drops one leading `\r` and one leading `\n`.
Returns the data mapping and the content. -/
def matter (input : JStr) : List (JStr × JStr) × JStr :=
  if !startsWithB "---".data input then ([], input)
  else if (input.drop 3).head? = some '-' then ([], input)
  else
    let s0 := input.drop 3
    let rawLang := s0.takeWhile (fun c => c != '\n')
    let s := if trimStr rawLang = [] then s0 else s0.drop rawLang.length
    match firstIndexOfSub "\n---".data s with
    | none => (parseYamlKV s, [])
    | some i =>
      let body0 := s.drop (i + 4)
      let body1 := if body0.head? = some '\r' then body0.drop 1 else body0
      let body := if body1.head? = some '\n' then body1.drop 1 else body1
      (parseYamlKV (s.take i), body)

/-- The per-file parse stage of `getDocs` (lines 91–96): gray-matter split,
then the two sanitation passes over the body.  Returns `(frontMatter,
content)`. -/
def parseDoc (raw : JStr) : List (JStr × JStr) × JStr :=
  let m := matter raw
  (m.1, sanitizeContent m.2)

/- A node of the in-process virtual filesystem (`memfs`): a file with raw
contents or a directory with named children in listing order. -/
mutual
/-- A filesystem node: raw file contents or a directory. -/
inductive FsNode where
  | file (contents : JStr) : FsNode
  | dir (children : List FsEntry) : FsNode
inductive FsEntry where
  | mk (name : JStr) (node : FsNode) : FsEntry
end

/-- Name of a directory entry. -/
def FsEntry.name : FsEntry → JStr
  | .mk n _ => n

/-- Node of a directory entry. -/
def FsEntry.node : FsEntry → FsNode
  | .mk _ n => n

/-- Evaluation of the optional crawl filter: `!filter || filter.test(dir)`. -/
def passes (filter : Option (JStr → Bool)) (p : JStr) : Bool :=
  match filter with
  | none => true
  | some f => f p

/- Embeds `crawl` of `src/utils/docs.tsx` (lines 30–39). -/
mutual
/-- Recursively crawls a directory, returning the file paths (in listing
order) that pass the filter; a non-directory root is returned itself iff it
passes.  The node argument is the filesystem subtree addressed by
`dirPath`. -/
def crawl (filter : Option (JStr → Bool)) : FsNode → JStr → List JStr
  | .file _, dirPath => if passes filter dirPath then [dirPath] else []
  | .dir cs, dirPath => crawlList filter cs dirPath
def crawlList (filter : Option (JStr → Bool)) : List FsEntry → JStr → List JStr
  | [], _ => []
  | .mk name node :: rest, dirPath =>
    crawl filter node (dirPath ++ '/' :: name) ++ crawlList filter rest dirPath
end

/- Enumeration of all files below a node. -/
mutual
/-- All files below a node, with their contents; `crawl` with no filter is
the first projection of this list.  Carrying the contents alongside the path
embeds the later `fs.readFileSync(file)` of `getDocs`. -/
def filesUnder : FsNode → JStr → List (JStr × JStr)
  | .file c, path => [(path, c)]
  | .dir cs, path => filesUnderList cs path
def filesUnderList : List FsEntry → JStr → List (JStr × JStr)
  | [], _ => []
  | .mk name node :: rest, path =>
    filesUnder node (path ++ '/' :: name) ++ filesUnderList rest path
end

/-- The `docs` sub-configuration of a library entry in `data/libraries`. -/
structure DocsConfig where
  dir : Option JStr := none
  repo : JStr
  branch : Option JStr := none

/-- A library entry of the external config collaborator. -/
structure LibConfig where
  docs : Option DocsConfig := none

/-- The static library registry, in `Object.keys` (insertion) order. -/
abbrev Config := List (JStr × LibConfig)

/-- Config lookup `libs[lib]`. -/
def lookupCfg (cfg : Config) (lib : JStr) : Option LibConfig :=
  (cfg.find? (fun p => p.1 = lib)).map (·.2)

/-- The params derived by `getParams`. -/
structure Params where
  repo : JStr
  branch : JStr
  gitDir : JStr
  entry : JStr
deriving DecidableEq, Repr

/-- Embeds `getParams` (lines 44–54): absent when the library or its `docs`
sub-config is missing; otherwise defaults `dir` to the empty string and
`branch` to `main`, derives the cache slot
`gitDir = /${repo.replace('/', '-')}-${branch}` (JS `replace` with a string
pattern replaces the first occurrence only) and the entry path, which is
`gitDir` itself when `dir` is empty (falsy). -/
def getParams (cfg : Config) (lib : JStr) : Option Params :=
  match lookupCfg cfg lib with
  | none => none
  | some c =>
    match c.docs with
    | none => none
    | some d =>
      let dir := d.dir.getD []
      let branch := d.branch.getD "main".data
      let gitDir := '/' :: (replaceFirst d.repo "/".data "-".data ++ "-".data ++ branch)
      let entry := if dir ≠ [] then gitDir ++ '/' :: dir else gitDir
      some ⟨d.repo, branch, gitDir, entry⟩

/-- A parsed document as stored in the docs map (line 99):
`{ path, slug, data, content }`. -/
structure Doc where
  path : JStr
  slug : List JStr
  data : List (JStr × JStr)
  content : JStr
deriving DecidableEq, Repr

/-- The per-file body of the `files.forEach` loop (lines 85–99): derives the
relative path and slug, parses and sanitizes the contents, and returns the
map key `slug.join('/')` with the document. -/
def mkDoc (lib entry : JStr) (file contents : JStr) : JStr × Doc :=
  let path := replaceFirst file (entry ++ "/".data) []
  let slug := lib :: splitOnChar '/' (stripMdExt path)
  let parsed := parseDoc contents
  (joinSlash slug, ⟨path, slug, parsed.1, parsed.2⟩)

/-- JS `Map.set`: replaces the value at an existing key in place, otherwise
appends the pair (insertion order is preserved). -/
def mapSet (m : List (JStr × Doc)) (k : JStr) (v : Doc) : List (JStr × Doc) :=
  match m with
  | [] => [(k, v)]
  | (k', v') :: rest => if k' = k then (k, v) :: rest else (k', v') :: mapSet rest k v

/-- JS `Map.get` as used to observe the docs map. -/
def lookupKey (m : List (JStr × Doc)) (k : JStr) : Option Doc :=
  (m.find? (fun p => p.1 = k)).map (·.2)

/-- The docs map built by the `files.forEach` loop of `getDocs`
(lines 84–100), folding `docs.set` over the crawled files in order. -/
def buildDocs (lib entry : JStr) (files : List (JStr × JStr)) : List (JStr × Doc) :=
  files.foldl (fun m f => mapSet m (mkDoc lib entry f.1 f.2).1 (mkDoc lib entry f.1 f.2).2) []

/-- The remote repository transport: a repository coordinate and ref either
resolve to the cloned tree or fail (network error / unknown coordinate). -/
abbrev Remote := JStr → JStr → Option FsNode

/-- One `git.clone` invocation as performed by `getDocs` (lines 71–79). -/
structure CloneCall where
  gitDir : JStr
  url : JStr
  ref : JStr
deriving DecidableEq, Repr

/-- Child of a directory listing by name. -/
def childNamed : List FsEntry → JStr → Option FsNode
  | [], _ => none
  | .mk name node :: rest, s => if name = s then some node else childNamed rest s

/-- Resolves a path given as segments below a node. -/
def resolveSegs : FsNode → List JStr → Option FsNode
  | n, [] => some n
  | .file _, _ :: _ => none
  | .dir cs, s :: rest =>
    match childNamed cs s with
    | none => none
    | some c => resolveSegs c rest

/-- Resolves `params.entry` relative to the cloned tree mounted at
`params.gitDir`: the relative part is empty or `/`-separated segments. -/
def resolvePath (n : FsNode) (rel : JStr) : Option FsNode :=
  match rel with
  | [] => some n
  | '/' :: r => resolveSegs n (splitOnChar '/' r)
  | _ => none

/-- Embeds the single-library path of `getDocs` (lines 59–103): absent when
`getParams` is (result `Except.ok none` with no clone call); otherwise one
unconditional `git.clone` of `https://github.com/${repo}` at `gitDir` — an
error of the transport or a missing entry path rejects the call — then crawl
with `MARKDOWN_REGEX`, parse each file, and build the docs map.  Returns the
clone calls performed and the outcome. -/
def getDocs1 (remote : Remote) (cfg : Config) (lib : JStr) :
    List CloneCall × Except Unit (Option (List (JStr × Doc))) :=
  match getParams cfg lib with
  | none => ([], .ok none)
  | some p =>
    let call : CloneCall := ⟨p.gitDir, "https://github.com/".data ++ p.repo, p.branch⟩
    match remote p.repo p.branch with
    | none => ([call], .error ())
    | some tree =>
      match resolvePath tree (p.entry.drop p.gitDir.length) with
      | none => ([call], .error ())
      | some entryNode =>
        let files := (filesUnder entryNode p.entry).filter (fun pc => isMarkdownPath pc.1)
        ([call], .ok (some (buildDocs lib p.entry files)))

/-- Embeds `Promise.all` over the per-library results: every task runs, and
the aggregate rejects when any single task rejects. -/
def collectResults :
    List (Except Unit (Option (List (JStr × Doc)))) →
      Except Unit (List (Option (List (JStr × Doc))))
  | [] => .ok []
  | .error e :: _ => .error e
  | .ok a :: rest =>
    match collectResults rest with
    | .error e => .error e
    | .ok as => .ok (a :: as)

/-- Embeds the all-libraries path of `getDocs` (lines 61–64):
`Promise.all(Object.keys(libs).map(getDocs))` followed by
`.filter(Boolean).flatMap((c) => Array.from(c.values()))`.  Every library
attempts its acquisition (all clone calls appear in the trace), and the
aggregated result rejects if any single library rejects. -/
def getDocsAll (remote : Remote) (cfg : Config) :
    List CloneCall × Except Unit (List Doc) :=
  let results := cfg.map (fun p => getDocs1 remote cfg p.1)
  (results.flatMap (·.1),
   match collectResults (results.map (·.2)) with
   | .error e => .error e
   | .ok opts => .ok ((opts.filterMap id).flatMap (fun m => m.map (·.2))))

/-- Last element of a segment list (empty default), used to reason about the
final path segment. -/
def lastSeg : List JStr → JStr
  | [] => []
  | [x] => x
  | _ :: y :: r => lastSeg (y :: r)

/-- The child-name component of a crawled path: what follows `root ++ "/"`,
up to the next separator.  Distinguishes the subtrees of distinct children. -/
def extractName (root p : JStr) : JStr :=
  (p.drop (root.length + 1)).takeWhile (fun c => c != '/')

/-- Decides that a name contains no path separator. -/
def noSlash : JStr → Bool
  | [] => true
  | c :: r => if c = '/' then false else noSlash r

/-- Decides membership of a string in a list of strings. -/
def memB (x : JStr) : List JStr → Bool
  | [] => false
  | y :: r => if x = y then true else memB x r

/-- Decides that a list of strings is duplicate-free. -/
def allDistinct : List JStr → Bool
  | [] => true
  | x :: r => !memB x r && allDistinct r

/- Well-formedness of a filesystem tree: within each directory the child
names are distinct and contain no separator — the invariant any real
filesystem listing satisfies. -/
mutual
/-- Well-formedness of a node (see the comment above). -/
def wfNode : FsNode → Bool
  | .file _ => true
  | .dir cs => allDistinct (cs.map FsEntry.name) && wfList cs
/-- Well-formedness of a listing: every name separator-free, every child
well-formed. -/
def wfList : List FsEntry → Bool
  | [] => true
  | .mk name node :: rest => noSlash name && wfNode node && wfList rest
end

/-- The C2 example body from the spec:
`<!-- --> \n---\ntitle: A\n---\n<!-- hidden -->Visible`. -/
def exC2 : JStr :=
  "<!-- --> \n---\ntitle: A\n---\n<!-- hidden -->Visible".data

/-- Example tree for the C1 scenario: one markdown file. -/
def treeC1 : FsNode :=
  .dir [.mk "intro.md".data (.file "hello".data)]

/-- C1 scenario config: library `a` whose repository is unavailable, and
library `b` whose repository clones fine. -/
def cfgC1 : Config :=
  [("a".data, { docs := some { repo := "x/y".data } }),
   ("b".data, { docs := some { repo := "u/v".data } })]

/-- C1 scenario config holding only the healthy library `b`. -/
def cfgC1ok : Config :=
  [("b".data, { docs := some { repo := "u/v".data } })]

/-- C1 scenario transport: only `u/v@main` exists. -/
def remC1 : Remote := fun r br =>
  if r = "u/v".data ∧ br = "main".data then some treeC1 else none

/-- C3 scenario config: a single configured library. -/
def cfgC3 : Config :=
  [("a".data, { docs := some { repo := "o/r".data } })]

/-- C3 scenario transport: `o/r@main` exists. -/
def remC3 : Remote := fun r br =>
  if r = "o/r".data ∧ br = "main".data then some treeC1 else none

/-- C4 example tree: markdown files at different depths plus a non-matching
file. -/
def exTreeC4 : FsNode :=
  .dir [.mk "docs".data (.dir [.mk "a.md".data (.file "x".data),
                               .mk "b.txt".data (.file "y".data)]),
        .mk "c.mdx".data (.file "z".data)]

/-- C8 example config: a library present without a docs sub-config. -/
def cfgC8 : Config :=
  [("nodocs".data, { docs := none })]

/-- C8 example transport: every coordinate resolves (so that the absence of
a clone call is attributable to the config alone). -/
def remC8 : Remote := fun _ _ => some treeC1

/-- C9 example config: two libraries on the same repo and branch with
different `dir` values. -/
def cfgC9 : Config :=
  [("p".data, { docs := some { dir := some "docs".data, repo := "o/r".data } }),
   ("q".data, { docs := some { repo := "o/r".data } })]

/-- The cache slot `getParams` derives from a docs sub-config:
`/${repo.replace('/', '-')}-${branch}` with `branch` defaulted to `main`. -/
def gitDirOf (d : DocsConfig) : JStr :=
  '/' :: (replaceFirst d.repo "/".data "-".data ++ "-".data ++ d.branch.getD "main".data)

/-- The entry path `getParams` derives: `gitDir` extended by the configured
subdirectory when that is nonempty. -/
def entryOf (d : DocsConfig) : JStr :=
  if d.dir.getD [] ≠ [] then gitDirOf d ++ '/' :: d.dir.getD [] else gitDirOf d

/-- C10 example directory listing: one markdown file. -/
def csC10 : List FsEntry := [.mk "intro.md".data (.file "hello".data)]

/-- C10 example document, as produced for `intro.md` under library `a`. -/
def docC10 : Doc := ⟨"intro.md".data, ["a".data, "intro".data], [], "hello".data⟩

lemma startsWithB_iff (p : JStr) : ∀ s, startsWithB p s = true ↔ ∃ t, s = p ++ t := by
  induction p with
  | nil => intro s; simp [startsWithB]
  | cons a ps ih =>
    intro s
    cases s with
    | nil => simp [startsWithB]
    | cons c cs =>
      by_cases hac : a = c
      · subst hac
        simp only [startsWithB, eq_self_iff_true, if_true, ih, List.cons_append,
          List.cons.injEq, true_and]
      · simp [startsWithB, hac, List.cons.injEq, eq_comm]

lemma endsWithB_iff (p s : JStr) : endsWithB p s = true ↔ ∃ t, s = t ++ p := by
  unfold endsWithB
  rw [startsWithB_iff]
  constructor
  · rintro ⟨u, hu⟩
    refine ⟨u.reverse, ?_⟩
    have h2 := congrArg List.reverse hu
    simp only [List.reverse_reverse, List.reverse_append] at h2
    exact h2
  · rintro ⟨t, rfl⟩
    exact ⟨t.reverse, by simp⟩


lemma endsWithB_append_self (p x : JStr) : endsWithB p (x ++ p) = true :=
  (endsWithB_iff p (x ++ p)).mpr ⟨x, rfl⟩

lemma endsWithB_trans_append (p x t s : JStr) (hx : endsWithB p x = true) (hs : s = t ++ x) :
    endsWithB p s = true := by
  rcases (endsWithB_iff p x).mp hx with ⟨u, rfl⟩
  exact (endsWithB_iff p s).mpr ⟨t ++ u, by simp [hs]⟩

lemma takeLen_append (a b : JStr) : (a ++ b).take a.length = a := by
  induction a with
  | nil => simp
  | cons x xs ih => simp [ih]

lemma dropLen_append (a b : JStr) : (a ++ b).drop a.length = b := by
  induction a with
  | nil => simp
  | cons x xs ih => simp [ih]

lemma stripMdExt_mdx (t : JStr) : stripMdExt (t ++ ".mdx".data) = t := by
  unfold stripMdExt
  rw [if_pos (endsWithB_append_self _ t)]
  have hlen : (t ++ ".mdx".data).length - 4 = t.length := by simp
  rw [hlen]
  exact takeLen_append t ".mdx".data

lemma not_endsWithB_mdx_of_md (t : JStr) : endsWithB ".mdx".data (t ++ ".md".data) = false := by
  by_contra h
  have h2 : endsWithB ".mdx".data (t ++ ".md".data) = true := by
    cases hb : endsWithB ".mdx".data (t ++ ".md".data) with
    | false => exact absurd hb h
    | true => rfl
  rcases (endsWithB_iff _ _).mp h2 with ⟨u, hu⟩
  have hrev := congrArg List.reverse hu
  simp only [List.reverse_append] at hrev
  have hx : ('d' :: 'm' :: '.' :: t.reverse) = ('x' :: 'd' :: 'm' :: '.' :: u.reverse) := by
    simpa using hrev
  exact absurd (List.head_eq_of_cons_eq hx) (by decide)

lemma stripMdExt_md (t : JStr) : stripMdExt (t ++ ".md".data) = t := by
  unfold stripMdExt
  rw [not_endsWithB_mdx_of_md t]
  simp only [Bool.false_eq_true, if_false]
  rw [if_pos (endsWithB_append_self _ t)]
  have hlen : (t ++ ".md".data).length - 3 = t.length := by simp
  rw [hlen]
  exact takeLen_append t ".md".data

lemma stripMdExt_of_no_ext (s : JStr) (h1 : endsWithB ".mdx".data s = false)
    (h2 : endsWithB ".md".data s = false) : stripMdExt s = s := by
  unfold stripMdExt
  rw [h1, h2]
  simp

lemma splitOnChar_ne_nil (sep : Char) : ∀ s, splitOnChar sep s ≠ [] := by
  intro s
  cases s with
  | nil => simp [splitOnChar]
  | cons c t =>
    by_cases h : c = sep
    · simp [splitOnChar, h]
    · simp only [splitOnChar, if_neg h]
      cases splitOnChar sep t <;> simp

lemma splitOnChar_noSep (sep : Char) : ∀ s : JStr, (∀ c ∈ s, c ≠ sep) → splitOnChar sep s = [s] := by
  intro s
  induction s with
  | nil => intro _; rfl
  | cons c t ih =>
    intro h
    have hc : c ≠ sep := h c (List.mem_cons_self c t)
    have ht : splitOnChar sep t = [t] := ih fun x hx => h x (List.mem_cons_of_mem c hx)
    simp [splitOnChar, hc, ht]

lemma modifyLast_cons (f : JStr → JStr) (x : JStr) (l : List JStr) (h : l ≠ []) :
    modifyLast f (x :: l) = x :: modifyLast f l := by
  cases l with
  | nil => exact absurd rfl h
  | cons y r => rfl

lemma splitOnChar_append_noSep (sep : Char) (b : JStr) (hb : ∀ c ∈ b, c ≠ sep) :
    ∀ a : JStr, splitOnChar sep (a ++ b) = modifyLast (· ++ b) (splitOnChar sep a) := by
  intro a
  induction a with
  | nil =>
    simp only [List.nil_append, splitOnChar, modifyLast]
    exact splitOnChar_noSep sep b hb
  | cons c t ih =>
    by_cases hc : c = sep
    · subst hc
      simp only [List.cons_append, splitOnChar, eq_self_iff_true, if_true, List.append_eq]
      rw [ih, modifyLast_cons _ _ _ (splitOnChar_ne_nil c t)]
    · simp only [List.cons_append, splitOnChar, if_neg hc, List.append_eq]
      rw [ih]
      rcases hsp : splitOnChar sep t with _ | ⟨s, rest⟩
      · exact absurd hsp (splitOnChar_ne_nil sep t)
      · cases rest with
        | nil => simp [modifyLast]
        | cons y r =>
          rw [modifyLast_cons _ s (y :: r) (by simp)]
          simp [modifyLast_cons _ (c :: s) (y :: r) (by simp)]

lemma modifyLast_ne_nil (f : JStr → JStr) (l : List JStr) (h : l ≠ []) :
    modifyLast f l ≠ [] := by
  cases l with
  | nil => exact absurd rfl h
  | cons x r => cases r <;> simp [modifyLast]

lemma modifyLast_modifyLast (f g : JStr → JStr) :
    ∀ l, modifyLast f (modifyLast g l) = modifyLast (fun x => f (g x)) l := by
  intro l
  induction l with
  | nil => rfl
  | cons x r ih =>
    cases r with
    | nil => rfl
    | cons y s =>
      rw [modifyLast_cons g x (y :: s) (by simp),
          modifyLast_cons f x (modifyLast g (y :: s)) (modifyLast_ne_nil g (y :: s) (by simp)),
          modifyLast_cons _ x (y :: s) (by simp), ih]

lemma modifyLast_congr (f g : JStr → JStr) (hfg : ∀ x, f x = g x) :
    ∀ l, modifyLast f l = modifyLast g l := by
  intro l
  induction l with
  | nil => rfl
  | cons x r ih =>
    cases r with
    | nil => simp [modifyLast, hfg]
    | cons y s =>
      rw [modifyLast_cons f x (y :: s) (by simp), modifyLast_cons g x (y :: s) (by simp), ih]

lemma modifyLast_id : ∀ l : List JStr, modifyLast (fun x => x) l = l := by
  intro l
  induction l with
  | nil => rfl
  | cons x r ih =>
    cases r with
    | nil => rfl
    | cons y s => rw [modifyLast_cons _ x (y :: s) (by simp), ih]

lemma splitOnChar_eq_single (sep : Char) : ∀ s x, splitOnChar sep s = [x] → s = x := by
  intro s
  induction s with
  | nil =>
    intro x h
    simp only [splitOnChar, List.cons.injEq] at h
    exact h.1
  | cons c t ih =>
    intro x h
    by_cases hc : c = sep
    · rw [show splitOnChar sep (c :: t) = [] :: splitOnChar sep t by simp [splitOnChar, hc]] at h
      have h2 : splitOnChar sep t = [] := (List.cons.injEq _ _ _ _ ▸ h).2
      exact absurd h2 (splitOnChar_ne_nil sep t)
    · rcases hsp : splitOnChar sep t with _ | ⟨s', rest⟩
      · exact absurd hsp (splitOnChar_ne_nil sep t)
      · rw [show splitOnChar sep (c :: t) = (c :: s') :: rest by simp [splitOnChar, hc, hsp]] at h
        have h1 : (c :: s') = x ∧ rest = [] := by
          constructor
          · exact (List.cons.injEq _ _ _ _ ▸ h).1
          · exact (List.cons.injEq _ _ _ _ ▸ h).2
        have ht : t = s' := ih s' (by rw [hsp, h1.2])
        rw [← h1.1, ht]

lemma lastSeg_cons (x : JStr) (l : List JStr) (h : l ≠ []) : lastSeg (x :: l) = lastSeg l := by
  cases l with
  | nil => exact absurd rfl h
  | cons y r => rfl

lemma modifyLast_eq_self (f : JStr → JStr) :
    ∀ l, f (lastSeg l) = lastSeg l → modifyLast f l = l := by
  intro l
  induction l with
  | nil => intro _; rfl
  | cons x r ih =>
    intro hf
    cases r with
    | nil => simp only [modifyLast, lastSeg] at *; rw [hf]
    | cons y s =>
      rw [modifyLast_cons f x (y :: s) (by simp)]
      rw [ih (by rw [← lastSeg_cons x (y :: s) (by simp)]; exact hf)]

lemma splitOnChar_lastSeg_suffix (sep : Char) :
    ∀ s : JStr, ∃ t, s = t ++ lastSeg (splitOnChar sep s) := by
  intro s
  induction s with
  | nil => exact ⟨[], rfl⟩
  | cons c t ih =>
    by_cases hc : c = sep
    · rw [show splitOnChar sep (c :: t) = [] :: splitOnChar sep t by simp [splitOnChar, hc]]
      rw [lastSeg_cons [] _ (splitOnChar_ne_nil sep t)]
      rcases ih with ⟨u, hu⟩
      exact ⟨c :: u, by rw [List.cons_append, ← hu]⟩
    · rcases hsp : splitOnChar sep t with _ | ⟨s', rest⟩
      · exact absurd hsp (splitOnChar_ne_nil sep t)
      · rw [show splitOnChar sep (c :: t) = (c :: s') :: rest by simp [splitOnChar, hc, hsp]]
        cases rest with
        | nil =>
          have ht : t = s' := splitOnChar_eq_single sep t s' hsp
          exact ⟨[], by simp [lastSeg, ht]⟩
        | cons y r =>
          rw [lastSeg_cons (c :: s') (y :: r) (by simp)]
          rcases ih with ⟨u, hu⟩
          rw [hsp, lastSeg_cons s' (y :: r) (by simp)] at hu
          exact ⟨c :: u, by rw [List.cons_append, ← hu]⟩

lemma bool_eq_false_of_ne_true {b : Bool} (h : ¬ b = true) : b = false := by
  cases b
  · rfl
  · exact absurd rfl h

lemma splitStrip (s : JStr) :
    splitOnChar '/' (stripMdExt s) = modifyLast stripMdExt (splitOnChar '/' s) := by
  by_cases h1 : endsWithB ".mdx".data s = true
  · rcases (endsWithB_iff _ _).mp h1 with ⟨t, rfl⟩
    rw [stripMdExt_mdx, splitOnChar_append_noSep '/' ".mdx".data (by decide) t,
        modifyLast_modifyLast]
    rw [modifyLast_congr _ (fun x => x) (fun x => stripMdExt_mdx x), modifyLast_id]
  · by_cases h2 : endsWithB ".md".data s = true
    · rcases (endsWithB_iff _ _).mp h2 with ⟨t, rfl⟩
      rw [stripMdExt_md, splitOnChar_append_noSep '/' ".md".data (by decide) t,
          modifyLast_modifyLast]
      rw [modifyLast_congr _ (fun x => x) (fun x => stripMdExt_md x), modifyLast_id]
    · have h1f := bool_eq_false_of_ne_true h1
      have h2f := bool_eq_false_of_ne_true h2
      rw [stripMdExt_of_no_ext s h1f h2f]
      symm
      apply modifyLast_eq_self
      obtain ⟨t, ht⟩ := splitOnChar_lastSeg_suffix '/' s
      apply stripMdExt_of_no_ext
      · apply bool_eq_false_of_ne_true
        intro hx
        rw [endsWithB_trans_append ".mdx".data _ t s hx ht] at h1f
        exact absurd h1f (by simp)
      · apply bool_eq_false_of_ne_true
        intro hx
        rw [endsWithB_trans_append ".md".data _ t s hx ht] at h2f
        exact absurd h2f (by simp)

lemma getParams_some (cfg : Config) (lib : JStr) (c : LibConfig) (d : DocsConfig)
    (hl : lookupCfg cfg lib = some c) (hd : c.docs = some d) :
    getParams cfg lib = some ⟨d.repo, d.branch.getD "main".data, gitDirOf d, entryOf d⟩ := by
  simp [getParams, hl, hd, gitDirOf, entryOf]

lemma getParams_none (cfg : Config) (lib : JStr)
    (h : lookupCfg cfg lib = none ∨ ∃ c, lookupCfg cfg lib = some c ∧ c.docs = none) :
    getParams cfg lib = none := by
  rcases h with h | ⟨c, hc, hd⟩
  · simp [getParams, h]
  · simp [getParams, hc, hd]

/-- C2 (corrected): on the body
`<!-- --> \n---\ntitle: A\n---\n<!-- hidden -->Visible`, the parse stage of
`getDocs` does not produce front matter `{title: "A"}` — the mapping is
empty, because the leading comment prevents gray-matter from recognising the
block and the sanitation passes only run afterwards — and the resulting
content still holds the comment-open marker `<!--`. -/
theorem C2_counterexample :
    (parseDoc exC2).1 ≠ [("title".data, "A".data)] ∧
    containsSub "<!--".data (parseDoc exC2).2 = true := by
  constructor
  · decide
  · decide

/-- C2 (amended): on that body the parse keeps "Visible" in the content, but
the front matter stays unparsed — the result is exactly the empty mapping
with content `---\ntitle: A\n---\n<!-- hiddenVisible`, which retains the
front-matter delimiters and the unmatched comment opener. -/
theorem C2_amended_theorem :
    parseDoc exC2 = ([], "---\ntitle: A\n---\n<!-- hiddenVisible".data) ∧
    containsSub "Visible".data (parseDoc exC2).2 = true := by
  constructor
  · decide
  · decide

/-- C5 (confirmed): for every crawled file, the slug stored by `getDocs` is
the entry-relative path split on `/` with the markdown extension dropped
from the last segment and the library id prepended; on entry
`/repo-main/docs`, file `/repo-main/docs/guide/intro.md` and library `lib`
the slug is `lib/guide/intro`. -/
theorem C5_slug_derivation :
    (∀ lib entry file contents : JStr,
      (mkDoc lib entry file contents).2.slug =
        lib :: modifyLast stripMdExt
          (splitOnChar '/' (replaceFirst file (entry ++ "/".data) []))) ∧
    (mkDoc "lib".data "/repo-main/docs".data "/repo-main/docs/guide/intro.md".data []).2.slug =
      ["lib".data, "guide".data, "intro".data] ∧
    (mkDoc "lib".data "/repo-main/docs".data "/repo-main/docs/guide/intro.md".data []).1 =
      "lib/guide/intro".data := by
  refine ⟨fun lib entry file contents => ?_, by decide, by decide⟩
  show lib :: splitOnChar '/' (stripMdExt (replaceFirst file (entry ++ "/".data) [])) = _
  rw [splitStrip]

/-- C6 (confirmed): parsing `---\ntitle: X\n---\nBody` yields front matter
exactly `{title: "X"}` and content exactly `Body` with the delimiter lines
removed; and for every input with no leading front-matter block (it does not
start with `---`), the gray-matter split returns an empty mapping and the
whole body as content. -/
theorem C6_frontmatter_roundtrip :
    parseDoc "---\ntitle: X\n---\nBody".data = ([("title".data, "X".data)], "Body".data) ∧
    (∀ input : JStr, startsWithB "---".data input = false → matter input = ([], input)) := by
  constructor
  · decide
  · intro input h
    unfold matter
    rw [h]
    rfl

/-- C6 witness: the theorem applied to a concrete input without a
front-matter block. -/
theorem C6_frontmatter_roundtrip_witness :
    matter "Hello world".data = ([], "Hello world".data) :=
  C6_frontmatter_roundtrip.2 "Hello world".data (by decide)

/-- C3 (corrected, counterexample): two successive identical acquisition
requests for the same configured library each perform a `git.clone` — the
combined trace holds two clone calls (at the same `gitDir`), refuting that
the second request performs no clone once the slot is materialized. -/
theorem C3_counterexample :
    (getDocs1 remC3 cfgC3 "a".data).1 ++ (getDocs1 remC3 cfgC3 "a".data).1 =
      [⟨"/o-r-main".data, "https://github.com/o/r".data, "main".data⟩,
       ⟨"/o-r-main".data, "https://github.com/o/r".data, "main".data⟩] := by
  decide

/-- C3 (amended): two successive requests with identical coordinate+branch
resolve to the same cache slot (`getParams` is a function, so both derive
the same `gitDir`), but the code clones unconditionally: every request whose
params resolve performs exactly one clone call at that slot, regardless of
any earlier materialization — in particular the second identical request
re-clones. -/
theorem C3_amended_theorem (remote : Remote) (cfg : Config) (lib : JStr) (p : Params)
    (h : getParams cfg lib = some p) :
    (getDocs1 remote cfg lib).1 =
      [⟨p.gitDir, "https://github.com/".data ++ p.repo, p.branch⟩] := by
  cases hr : remote p.repo p.branch with
  | none => simp only [getDocs1, h, hr]
  | some tree =>
    cases hres : resolvePath tree (p.entry.drop p.gitDir.length) with
    | none => simp only [getDocs1, h, hr, hres]
    | some entryNode => simp only [getDocs1, h, hr, hres]

/-- C3 witness: the amended theorem applied to the concrete scenario. -/
theorem C3_amended_witness :
    (getDocs1 remC3 cfgC3 "a".data).1 =
      [⟨"/o-r-main".data, "https://github.com/o/r".data, "main".data⟩] :=
  C3_amended_theorem remC3 cfgC3 "a".data
    ⟨"o/r".data, "main".data, "/o-r-main".data, "/o-r-main".data⟩ (by decide)

/-- C8 (confirmed): for every library absent from the config or configured
without a docs sub-config, resolution returns absent (`getParams` is `none`,
not an exception) and `getDocs` for that library performs no clone call and
returns the absent result. -/
theorem C8_absent_no_clone (remote : Remote) (cfg : Config) (lib : JStr)
    (h : lookupCfg cfg lib = none ∨ ∃ c, lookupCfg cfg lib = some c ∧ c.docs = none) :
    getParams cfg lib = none ∧ getDocs1 remote cfg lib = ([], .ok none) := by
  have hp := getParams_none cfg lib h
  exact ⟨hp, by simp [getDocs1, hp]⟩

/-- C8 witness: a configured library without docs resolves to absent with an
empty clone trace, even though the transport would satisfy any request. -/
theorem C8_witness :
    getParams cfgC8 "nodocs".data = none ∧
      getDocs1 remC8 cfgC8 "nodocs".data = ([], .ok none) :=
  C8_absent_no_clone remC8 cfgC8 "nodocs".data (Or.inr ⟨{ docs := none }, rfl, rfl⟩)

/-- C9 (confirmed): the derived cache slot is a function of repository and
branch alone, equal to `/` + repo with its separator replaced by `-` + `-` +
branch, with branch defaulting to `main`; an empty (or missing) `dir` makes
the repository root the entry path, and any other config with the same repo
and branch — whatever its `dir` — derives the same `gitDir`. -/
theorem C9_cache_key (cfg : Config) (lib : JStr) (c : LibConfig) (d : DocsConfig)
    (hl : lookupCfg cfg lib = some c) (hd : c.docs = some d) :
    ∃ p, getParams cfg lib = some p ∧
      p.gitDir = '/' :: (replaceFirst d.repo "/".data "-".data ++ "-".data ++
        d.branch.getD "main".data) ∧
      p.branch = d.branch.getD "main".data ∧
      ((d.dir = none ∨ d.dir = some []) → p.entry = p.gitDir) ∧
      ∀ lib' c' d', lookupCfg cfg lib' = some c' → c'.docs = some d' →
        d'.repo = d.repo → d'.branch = d.branch →
        ∃ p', getParams cfg lib' = some p' ∧ p'.gitDir = p.gitDir := by
  refine ⟨_, getParams_some cfg lib c d hl hd, rfl, rfl, ?_, ?_⟩
  · intro hdir
    show entryOf d = gitDirOf d
    unfold entryOf
    rcases hdir with h | h <;> simp [h]
  · intro lib' c' d' hl' hd' hrepo hbr
    refine ⟨_, getParams_some cfg lib' c' d' hl' hd', ?_⟩
    show gitDirOf d' = gitDirOf d
    unfold gitDirOf
    rw [hrepo, hbr]

/-- C9 witness: two configured libraries sharing repo `o/r` and the default
branch but with different `dir` values derive the same cache slot. -/
theorem C9_witness :
    ∃ p p', getParams cfgC9 "p".data = some p ∧ getParams cfgC9 "q".data = some p' ∧
      p'.gitDir = p.gitDir := by
  obtain ⟨p, hp, _, _, _, hall⟩ := C9_cache_key cfgC9 "p".data _ _ rfl rfl
  obtain ⟨p', hp', hg⟩ := hall "q".data _ _ rfl rfl rfl rfl
  exact ⟨p, p', hp, hp', hg⟩

lemma lookupKey_cons (a : JStr) (b : Doc) (rest : List (JStr × Doc)) (k : JStr) :
    lookupKey ((a, b) :: rest) k = if a = k then some b else lookupKey rest k := by
  by_cases h : a = k
  · simp [lookupKey, List.find?_cons_of_pos, h]
  · simp [lookupKey, List.find?_cons_of_neg, h]

lemma mapSet_cons_eq (k0 : JStr) (v0 : Doc) (rest : List (JStr × Doc)) (k : JStr) (v : Doc)
    (h : k0 = k) : mapSet ((k0, v0) :: rest) k v = (k, v) :: rest := by
  simp [mapSet, h]

lemma mapSet_cons_ne (k0 : JStr) (v0 : Doc) (rest : List (JStr × Doc)) (k : JStr) (v : Doc)
    (h : ¬ k0 = k) : mapSet ((k0, v0) :: rest) k v = (k0, v0) :: mapSet rest k v := by
  simp [mapSet, h]

lemma lookupKey_mapSet (m : List (JStr × Doc)) (k : JStr) (v : Doc) (k' : JStr) :
    lookupKey (mapSet m k v) k' = if k' = k then some v else lookupKey m k' := by
  induction m with
  | nil =>
    by_cases h : k' = k
    · rw [show mapSet [] k v = [(k, v)] from rfl, lookupKey_cons, if_pos h.symm, if_pos h]
    · rw [show mapSet [] k v = [(k, v)] from rfl, lookupKey_cons,
          if_neg (fun hh : k = k' => h hh.symm), if_neg h]
  | cons p rest ih =>
    obtain ⟨k0, v0⟩ := p
    by_cases h0 : k0 = k
    · rw [mapSet_cons_eq k0 v0 rest k v h0]
      by_cases h : k' = k
      · rw [lookupKey_cons, if_pos h.symm, if_pos h]
      · rw [lookupKey_cons, lookupKey_cons, if_neg (fun hh : k = k' => h hh.symm), if_neg h,
            if_neg (fun hh : k0 = k' => h (hh.symm.trans h0))]
    · rw [mapSet_cons_ne k0 v0 rest k v h0, lookupKey_cons, lookupKey_cons]
      by_cases h1 : k0 = k'
      · rw [if_pos h1, if_pos h1, if_neg (fun hh : k' = k => h0 (h1.trans hh))]
      · rw [if_neg h1, if_neg h1, ih]

lemma mem_keys_mapSet (m : List (JStr × Doc)) (k : JStr) (v : Doc) (x : JStr)
    (hx : x ∈ (mapSet m k v).map (·.1)) : x = k ∨ x ∈ m.map (·.1) := by
  induction m with
  | nil => simp [mapSet] at hx; exact Or.inl hx
  | cons p rest ih =>
    obtain ⟨k0, v0⟩ := p
    by_cases h0 : k0 = k
    · rw [mapSet_cons_eq k0 v0 rest k v h0] at hx
      simp only [List.map_cons, List.mem_cons] at hx
      rcases hx with hx | hx
      · exact Or.inl hx
      · exact Or.inr (by simp only [List.map_cons, List.mem_cons]; exact Or.inr hx)
    · rw [mapSet_cons_ne k0 v0 rest k v h0] at hx
      simp only [List.map_cons, List.mem_cons] at hx
      rcases hx with hx | hx
      · exact Or.inr (by simp only [List.map_cons, List.mem_cons]; exact Or.inl hx)
      · rcases ih hx with h | h
        · exact Or.inl h
        · exact Or.inr (by simp only [List.map_cons, List.mem_cons]; exact Or.inr h)

lemma keys_nodup_mapSet (m : List (JStr × Doc)) (k : JStr) (v : Doc)
    (hnd : (m.map (·.1)).Nodup) : ((mapSet m k v).map (·.1)).Nodup := by
  induction m with
  | nil => simp [mapSet]
  | cons p rest ih =>
    obtain ⟨k0, v0⟩ := p
    simp only [List.map_cons, List.nodup_cons] at hnd
    by_cases h0 : k0 = k
    · rw [mapSet_cons_eq k0 v0 rest k v h0]
      simp only [List.map_cons, List.nodup_cons]
      exact ⟨h0 ▸ hnd.1, hnd.2⟩
    · rw [mapSet_cons_ne k0 v0 rest k v h0]
      simp only [List.map_cons, List.nodup_cons]
      refine ⟨fun hmem => ?_, ih hnd.2⟩
      rcases mem_keys_mapSet rest k v k0 hmem with h | h
      · exact h0 h
      · exact hnd.1 h

lemma buildDocs_go_lookup (lib entry : JStr) :
    ∀ (files : List (JStr × JStr)) (m : List (JStr × Doc)) (k : JStr),
      lookupKey (files.foldl
          (fun m f => mapSet m (mkDoc lib entry f.1 f.2).1 (mkDoc lib entry f.1 f.2).2) m) k =
        match files.reverse.find? (fun f => (mkDoc lib entry f.1 f.2).1 = k) with
        | some f => some (mkDoc lib entry f.1 f.2).2
        | none => lookupKey m k := by
  intro files
  induction files with
  | nil => intro m k; rfl
  | cons f fs ih =>
    intro m k
    simp only [List.foldl_cons]
    rw [ih, List.reverse_cons, List.find?_append]
    cases hf : fs.reverse.find? (fun f => (mkDoc lib entry f.1 f.2).1 = k) with
    | some g => simp [hf]
    | none =>
      simp only [hf, Option.none_orElse]
      by_cases hk : (mkDoc lib entry f.1 f.2).1 = k
      · rw [List.find?_cons_of_pos _ (by simpa using hk)]
        simp [lookupKey_mapSet, hk.symm]
      · rw [List.find?_cons_of_neg _ (by simpa using hk)]
        simp only [List.find?_nil]
        rw [lookupKey_mapSet, if_neg (fun hh => hk hh.symm)]
        rfl

lemma buildDocs_keys_nodup (lib entry : JStr) :
    ∀ (files : List (JStr × JStr)) (m : List (JStr × Doc)),
      (m.map (·.1)).Nodup →
      ((files.foldl
          (fun m f => mapSet m (mkDoc lib entry f.1 f.2).1 (mkDoc lib entry f.1 f.2).2) m).map
        (·.1)).Nodup := by
  intro files
  induction files with
  | nil => intro m hm; exact hm
  | cons f fs ih =>
    intro m hm
    simp only [List.foldl_cons]
    exact ih _ (keys_nodup_mapSet m _ _ hm)

lemma filter_key_len (k : JStr) :
    ∀ m : List (JStr × Doc), (m.map (·.1)).Nodup →
      (m.filter (fun p => p.1 = k)).length = if (lookupKey m k).isSome then 1 else 0 := by
  intro m
  induction m with
  | nil => intro _; simp [lookupKey]
  | cons p rest ih =>
    intro hnd
    obtain ⟨a, b⟩ := p
    simp only [List.map_cons, List.nodup_cons] at hnd
    by_cases h : a = k
    · subst h
      rw [show List.filter (fun p => decide (p.1 = a)) ((a, b) :: rest) =
            (a, b) :: List.filter (fun p => decide (p.1 = a)) rest by simp]
      have hrest : List.filter (fun p => decide (p.1 = a)) rest = [] := by
        rw [List.filter_eq_nil_iff]
        intro q hq hqa
        exact hnd.1 (by simp only [List.mem_map]; exact ⟨q, hq, by simpa using hqa⟩)
      rw [hrest, lookupKey_cons, if_pos rfl]
      simp
    · rw [show List.filter (fun p => decide (p.1 = k)) ((a, b) :: rest) =
            List.filter (fun p => decide (p.1 = k)) rest by simp [h]]
      rw [lookupKey_cons, if_neg h]
      exact ih hnd.2

/-- C7 (confirmed): slug collision is last-write-wins — whenever some crawled
file derives the key `k`, the docs map built by `getDocs` holds exactly one
entry under `k`, and it is the document of the file processed last in
enumeration order among those deriving `k` (the last match of the reversed
file list). -/
theorem C7_last_write_wins (lib entry : JStr) (files : List (JStr × JStr)) (k : JStr)
    (h : (files.reverse.find? (fun f => (mkDoc lib entry f.1 f.2).1 = k)).isSome = true) :
    ((buildDocs lib entry files).filter (fun p => p.1 = k)).length = 1 ∧
    lookupKey (buildDocs lib entry files) k =
      (files.reverse.find? (fun f => (mkDoc lib entry f.1 f.2).1 = k)).map
        (fun f => (mkDoc lib entry f.1 f.2).2) := by
  obtain ⟨f, hf⟩ := Option.isSome_iff_exists.mp h
  have hlook : lookupKey (buildDocs lib entry files) k = some (mkDoc lib entry f.1 f.2).2 := by
    rw [show buildDocs lib entry files = files.foldl
        (fun m f => mapSet m (mkDoc lib entry f.1 f.2).1 (mkDoc lib entry f.1 f.2).2) [] from rfl]
    rw [buildDocs_go_lookup lib entry files [] k, hf]
  refine ⟨?_, by rw [hlook, hf]; rfl⟩
  rw [filter_key_len k (buildDocs lib entry files)
      (buildDocs_keys_nodup lib entry files [] (by simp)), hlook]
  rfl

/-- C7 witness: two files colliding on slug `l/a`; the map holds one entry
for that key, the later file's document. -/
theorem C7_witness :
    ((buildDocs "l".data "/e".data
        [("/e/a.md".data, "one".data), ("/e/a.mdx".data, "two".data)]).filter
      (fun p => p.1 = "l/a".data)).length = 1 ∧
    lookupKey (buildDocs "l".data "/e".data
        [("/e/a.md".data, "one".data), ("/e/a.mdx".data, "two".data)]) "l/a".data =
      ([("/e/a.md".data, "one".data), ("/e/a.mdx".data, "two".data)].reverse.find?
        (fun f => (mkDoc "l".data "/e".data f.1 f.2).1 = "l/a".data)).map
        (fun f => (mkDoc "l".data "/e".data f.1 f.2).2) :=
  C7_last_write_wins "l".data "/e".data
    [("/e/a.md".data, "one".data), ("/e/a.mdx".data, "two".data)] "l/a".data (by decide)

lemma collectResults_error_of_mem :
    ∀ rs : List (Except Unit (Option (List (JStr × Doc)))),
      Except.error () ∈ rs → collectResults rs = .error () := by
  intro rs h
  induction rs with
  | nil => simp at h
  | cons x rest ih =>
    cases x with
    | error e => cases e; rfl
    | ok a =>
      rcases List.mem_cons.mp h with h1 | h1
      · exact Except.noConfusion h1
      · rw [show collectResults (Except.ok a :: rest) =
            (match collectResults rest with
             | .error e => .error e
             | .ok as => .ok (a :: as)) from rfl, ih h1]

lemma collectResults_ok_of_forall :
    ∀ rs : List (Except Unit (Option (List (JStr × Doc)))),
      (∀ x ∈ rs, x ≠ .error ()) →
      ∃ ys, collectResults rs = .ok ys ∧ rs = ys.map Except.ok := by
  intro rs
  induction rs with
  | nil => intro _; exact ⟨[], rfl, rfl⟩
  | cons x rest ih =>
    intro h
    obtain ⟨ys, hy1, hy2⟩ := ih fun z hz => h z (List.mem_cons_of_mem x hz)
    cases x with
    | error e => cases e; exact absurd rfl (h _ (List.mem_cons_self _ _))
    | ok a =>
      refine ⟨a :: ys, ?_, by rw [List.map_cons, ← hy2]⟩
      rw [show collectResults (Except.ok a :: rest) =
          (match collectResults rest with
           | .error e => .error e
           | .ok as => .ok (a :: as)) from rfl, hy1]

lemma getDocsAll_snd (remote : Remote) (cfg : Config) :
    (getDocsAll remote cfg).2 =
      match collectResults ((cfg.map (fun p => getDocs1 remote cfg p.1)).map (·.2)) with
      | .error e => .error e
      | .ok opts => .ok ((opts.filterMap id).flatMap (fun m => m.map (·.2))) := rfl

/-- C1 (corrected, counterexample): with library `a` whose clone fails and
library `b` whose acquisition succeeds with one document, the all-libraries
`getDocs` rejects as a whole: `b` alone yields its document map, yet the
aggregate result is an error, not a flattened sequence containing the `b`
document. -/
theorem C1_counterexample :
    (getDocs1 remC1 cfgC1 "b".data).2 =
      .ok (some [("b/intro".data,
        ⟨"intro.md".data, ["b".data, "intro".data], [], "hello".data⟩)]) ∧
    (getDocsAll remC1 cfgC1).2 = .error () := by
  exact ⟨rfl, rfl⟩

/-- C1 (amended): in the all-libraries path, a library with no docs config
contributes nothing without aborting the rest, but acquisition failures are
not isolated: if any configured library's acquisition rejects, the whole
aggregated call rejects (`Promise.all` semantics); only when no library
rejects does the call return a flattened sequence, and that sequence then
contains every document of every library that produced a map. -/
theorem C1_isolation_amended (remote : Remote) (cfg : Config) :
    ((∃ p ∈ cfg, (getDocs1 remote cfg p.1).2 = .error ()) →
      (getDocsAll remote cfg).2 = .error ()) ∧
    ((∀ p ∈ cfg, (getDocs1 remote cfg p.1).2 ≠ .error ()) →
      ∃ l, (getDocsAll remote cfg).2 = .ok l ∧
        ∀ p ∈ cfg, ∀ m, (getDocs1 remote cfg p.1).2 = .ok (some m) →
          ∀ kd ∈ m, kd.2 ∈ l) := by
  constructor
  · rintro ⟨p, hp, herr⟩
    have hmem : (Except.error () : Except Unit (Option (List (JStr × Doc)))) ∈
        (cfg.map (fun p => getDocs1 remote cfg p.1)).map (·.2) := by
      rw [← herr]
      exact List.mem_map_of_mem _ (List.mem_map_of_mem _ hp)
    rw [getDocsAll_snd, collectResults_error_of_mem _ hmem]
  · intro hall
    have hne : ∀ x ∈ (cfg.map (fun p => getDocs1 remote cfg p.1)).map (·.2),
        x ≠ .error () := by
      intro x hx
      rcases List.mem_map.mp hx with ⟨r, hr, rfl⟩
      rcases List.mem_map.mp hr with ⟨p, hp, rfl⟩
      exact hall p hp
    obtain ⟨ys, hy1, hy2⟩ := collectResults_ok_of_forall _ hne
    refine ⟨(ys.filterMap id).flatMap (fun m => m.map (·.2)), ?_, ?_⟩
    · rw [getDocsAll_snd, hy1]
    · intro p hp m hm kd hkd
      have hin : (Except.ok (some m) : Except Unit (Option (List (JStr × Doc)))) ∈
          ys.map Except.ok := by
        rw [← hy2, ← hm]
        exact List.mem_map_of_mem _ (List.mem_map_of_mem _ hp)
      rcases List.mem_map.mp hin with ⟨y, hy, hyy⟩
      have hym : y = some m := by
        cases hyy
        rfl
      have hmem2 : m ∈ ys.filterMap id :=
        List.mem_filterMap.mpr ⟨some m, hym ▸ hy, rfl⟩
      exact List.mem_flatMap.mpr ⟨m, hmem2, List.mem_map_of_mem _ hkd⟩

/-- C1 witness: the failure half applied to the failing scenario and the
success half applied to the healthy single-library scenario. -/
theorem C1_isolation_witness :
    (getDocsAll remC1 cfgC1).2 = .error () ∧
    (∃ l, (getDocsAll remC1 cfgC1ok).2 = .ok l ∧
      ∀ p ∈ cfgC1ok, ∀ m, (getDocs1 remC1 cfgC1ok p.1).2 = .ok (some m) →
        ∀ kd ∈ m, kd.2 ∈ l) := by
  constructor
  · exact (C1_isolation_amended remC1 cfgC1).1
      ⟨("a".data, { docs := some { repo := "x/y".data } }),
       List.mem_cons_self _ _, rfl⟩
  · refine (C1_isolation_amended remC1 cfgC1ok).2 ?_
    intro p hp
    rcases List.mem_singleton.mp hp with rfl
    intro hc
    rw [show (getDocs1 remC1 cfgC1ok "b".data).2 =
        .ok (some [("b/intro".data,
          ⟨"intro.md".data, ["b".data, "intro".data], [], "hello".data⟩)]) from rfl] at hc
    exact Except.noConfusion hc

lemma noSlash_iff (s : JStr) : noSlash s = true ↔ '/' ∉ s := by
  induction s with
  | nil => simp [noSlash]
  | cons c r ih =>
    by_cases h : c = '/'
    · simp [noSlash, h]
    · simp only [noSlash, if_neg h, ih, List.mem_cons]
      constructor
      · intro h1 h2
        rcases h2 with h2 | h2
        · exact h h2.symm
        · exact h1 h2
      · intro h1 h2
        exact h1 (Or.inr h2)

lemma memB_iff (x : JStr) : ∀ l, memB x l = true ↔ x ∈ l := by
  intro l
  induction l with
  | nil => simp [memB]
  | cons y r ih =>
    by_cases h : x = y
    · simp [memB, h]
    · simp [memB, h, ih]

lemma allDistinct_iff : ∀ l : List JStr, allDistinct l = true ↔ l.Nodup := by
  intro l
  induction l with
  | nil => simp [allDistinct]
  | cons x r ih =>
    simp only [allDistinct, Bool.and_eq_true, Bool.not_eq_true', List.nodup_cons, ih]
    constructor
    · rintro ⟨h1, h2⟩
      exact ⟨fun hm => by rw [(memB_iff x r).mpr hm] at h1; exact Bool.noConfusion h1, h2⟩
    · rintro ⟨h1, h2⟩
      refine ⟨?_, h2⟩
      cases hm : memB x r with
      | false => rfl
      | true => exact absurd ((memB_iff x r).mp hm) h1

lemma wfNode_dir (cs : List FsEntry) :
    wfNode (.dir cs) = (allDistinct (cs.map FsEntry.name) && wfList cs) := rfl

lemma wfList_cons (name : JStr) (node : FsNode) (rest : List FsEntry) :
    wfList (.mk name node :: rest) = (noSlash name && wfNode node && wfList rest) := rfl

lemma wfList_all : ∀ cs : List FsEntry, wfList cs = true →
    ∀ e ∈ cs, noSlash e.name = true ∧ wfNode e.node = true := by
  intro cs
  induction cs with
  | nil => intro _ e he; simp at he
  | cons e0 rest ih =>
    intro hw e he
    cases e0 with
    | mk name node =>
      rw [wfList_cons] at hw
      simp only [Bool.and_eq_true] at hw
      rcases List.mem_cons.mp he with rfl | he2
      · exact ⟨hw.1.1, hw.1.2⟩
      · exact ih hw.2 e he2

lemma takeWhile_name (rest : JStr) (hr : rest = [] ∨ ∃ r, rest = '/' :: r) :
    ∀ name : JStr, noSlash name = true →
      (name ++ rest).takeWhile (fun c => c != '/') = name := by
  intro name
  induction name with
  | nil =>
    intro _
    rcases hr with rfl | ⟨r, rfl⟩
    · rfl
    · simp [List.takeWhile]
  | cons c nm ih =>
    intro hn
    have hc : ¬ c = '/' := by
      intro hcc
      rw [show noSlash (c :: nm) = false by simp [noSlash, hcc]] at hn
      exact Bool.noConfusion hn
    have hn2 : noSlash nm = true := by
      rw [show noSlash (c :: nm) = noSlash nm by simp [noSlash, hc]] at hn
      exact hn
    simp only [List.cons_append, List.takeWhile_cons]
    rw [show (c != '/') = true by simp [hc]]
    simp only [if_true]
    rw [ih hn2]

mutual
theorem filesUnder_shape (n : FsNode) :
    ∀ root pc, pc ∈ filesUnder n root → pc.1 = root ∨ ∃ r, pc.1 = root ++ '/' :: r := by
  intro root pc h
  cases n with
  | file c =>
    rw [show filesUnder (.file c) root = [(root, c)] from rfl] at h
    rcases List.mem_singleton.mp h with rfl
    exact Or.inl rfl
  | dir cs =>
    rw [show filesUnder (.dir cs) root = filesUnderList cs root from rfl] at h
    exact Or.inr (filesUnderList_shape cs root pc h)
theorem filesUnderList_shape (cs : List FsEntry) :
    ∀ root pc, pc ∈ filesUnderList cs root → ∃ r, pc.1 = root ++ '/' :: r := by
  intro root pc h
  cases cs with
  | nil => rw [show filesUnderList [] root = [] from rfl] at h; simp at h
  | cons e rest =>
    cases e with
    | mk name node =>
      rw [show filesUnderList (.mk name node :: rest) root =
          filesUnder node (root ++ '/' :: name) ++ filesUnderList rest root from rfl] at h
      rcases List.mem_append.mp h with h1 | h1
      · rcases filesUnder_shape node (root ++ '/' :: name) pc h1 with h2 | ⟨r, h2⟩
        · exact ⟨name, h2⟩
        · exact ⟨name ++ '/' :: r, by rw [h2]; simp⟩
      · exact filesUnderList_shape rest root pc h1
end

lemma mem_filesUnderList (root : JStr) (pc : JStr × JStr) :
    ∀ cs : List FsEntry, pc ∈ filesUnderList cs root →
      ∃ e ∈ cs, pc ∈ filesUnder e.node (root ++ '/' :: e.name) := by
  intro cs
  induction cs with
  | nil => intro h; rw [show filesUnderList [] root = [] from rfl] at h; simp at h
  | cons e rest ih =>
    intro h
    cases e with
    | mk name node =>
      rw [show filesUnderList (.mk name node :: rest) root =
          filesUnder node (root ++ '/' :: name) ++ filesUnderList rest root from rfl] at h
      rcases List.mem_append.mp h with h1 | h1
      · exact ⟨.mk name node, List.mem_cons_self _ _, h1⟩
      · obtain ⟨e2, he2, hm⟩ := ih h1
        exact ⟨e2, List.mem_cons_of_mem _ he2, hm⟩

lemma extractName_of_mem (root name : JStr) (node : FsNode) (hn : noSlash name = true)
    (pc : JStr × JStr) (h : pc ∈ filesUnder node (root ++ '/' :: name)) :
    extractName root pc.1 = name := by
  have hlen : root.length + 1 = (root ++ ['/']).length := by simp
  rcases filesUnder_shape node (root ++ '/' :: name) pc h with h2 | ⟨r, h2⟩
  · unfold extractName
    rw [h2, show root ++ '/' :: name = (root ++ ['/']) ++ name by simp, hlen,
        dropLen_append]
    have := takeWhile_name [] (Or.inl rfl) name hn
    rw [List.append_nil] at this
    exact this
  · unfold extractName
    rw [h2, show (root ++ '/' :: name) ++ '/' :: r = (root ++ ['/']) ++ (name ++ '/' :: r) by
          simp, hlen, dropLen_append]
    exact takeWhile_name ('/' :: r) (Or.inr ⟨r, rfl⟩) name hn

mutual
theorem crawl_eq_filter (filt : Option (JStr → Bool)) (n : FsNode) :
    ∀ path, crawl filt n path =
      ((filesUnder n path).filter (fun pc => passes filt pc.1)).map (·.1) := by
  intro path
  cases n with
  | file c =>
    rw [show crawl filt (.file c) path = if passes filt path then [path] else [] from rfl,
        show filesUnder (.file c) path = [(path, c)] from rfl]
    by_cases h : passes filt path = true
    · simp [h]
    · have hf := bool_eq_false_of_ne_true h
      simp [hf]
  | dir cs =>
    rw [show crawl filt (.dir cs) path = crawlList filt cs path from rfl,
        show filesUnder (.dir cs) path = filesUnderList cs path from rfl]
    exact crawlList_eq_filter filt cs path
theorem crawlList_eq_filter (filt : Option (JStr → Bool)) (cs : List FsEntry) :
    ∀ path, crawlList filt cs path =
      ((filesUnderList cs path).filter (fun pc => passes filt pc.1)).map (·.1) := by
  intro path
  cases cs with
  | nil => rfl
  | cons e rest =>
    cases e with
    | mk name node =>
      rw [show crawlList filt (.mk name node :: rest) path =
            crawl filt node (path ++ '/' :: name) ++ crawlList filt rest path from rfl,
          show filesUnderList (.mk name node :: rest) path =
            filesUnder node (path ++ '/' :: name) ++ filesUnderList rest path from rfl,
          crawl_eq_filter filt node (path ++ '/' :: name),
          crawlList_eq_filter filt rest path,
          List.filter_append, List.map_append]
end

mutual
theorem filesUnder_nodup (n : FsNode) (hw : wfNode n = true) :
    ∀ root, ((filesUnder n root).map (·.1)).Nodup := by
  intro root
  cases n with
  | file c =>
    rw [show filesUnder (.file c) root = [(root, c)] from rfl]
    simp
  | dir cs =>
    rw [show filesUnder (.dir cs) root = filesUnderList cs root from rfl]
    rw [wfNode_dir, Bool.and_eq_true] at hw
    exact filesUnderList_nodup cs hw.2 hw.1 root
theorem filesUnderList_nodup (cs : List FsEntry) (hw : wfList cs = true)
    (hnames : allDistinct (cs.map FsEntry.name) = true) :
    ∀ root, ((filesUnderList cs root).map (·.1)).Nodup := by
  intro root
  cases cs with
  | nil =>
    rw [show filesUnderList [] root = [] from rfl]
    simp
  | cons e rest =>
    cases e with
    | mk name node =>
      rw [wfList_cons, Bool.and_eq_true, Bool.and_eq_true] at hw
      rw [show (FsEntry.mk name node :: rest).map FsEntry.name =
            name :: rest.map FsEntry.name from rfl] at hnames
      rw [show allDistinct (name :: rest.map FsEntry.name) =
            (!memB name (rest.map FsEntry.name) && allDistinct (rest.map FsEntry.name))
          from rfl, Bool.and_eq_true, Bool.not_eq_true'] at hnames
      rw [show filesUnderList (.mk name node :: rest) root =
            filesUnder node (root ++ '/' :: name) ++ filesUnderList rest root from rfl,
          List.map_append, List.nodup_append]
      refine ⟨filesUnder_nodup node hw.1.2 (root ++ '/' :: name),
        filesUnderList_nodup rest hw.2 hnames.2 root, ?_⟩
      intro a ha hb
      rcases List.mem_map.mp ha with ⟨pc, hpc, rfl⟩
      rcases List.mem_map.mp hb with ⟨pc2, hpc2, heq⟩
      obtain ⟨e2, he2, hm2⟩ := mem_filesUnderList root pc2 rest hpc2
      have h1 : extractName root pc.1 = name :=
        extractName_of_mem root name node hw.1.1 pc hpc
      have hns2 : noSlash e2.name = true := (wfList_all rest hw.2 e2 he2).1
      have h2 : extractName root pc2.1 = e2.name :=
        extractName_of_mem root e2.name e2.node hns2 pc2 hm2
      have hname_eq : e2.name = name := by rw [← h1, ← heq, h2]
      have hmem : memB name (rest.map FsEntry.name) = true :=
        (memB_iff name _).mpr (hname_eq ▸ List.mem_map_of_mem FsEntry.name he2)
      rw [hnames.1] at hmem
      exact Bool.noConfusion hmem
end

lemma filter_map_fst (q : JStr → Bool) :
    ∀ l : List (JStr × JStr),
      (l.map (·.1)).filter q = (l.filter (fun pc => q pc.1)).map (·.1) := by
  intro l
  induction l with
  | nil => rfl
  | cons pc rest ih =>
    by_cases h : q pc.1 = true
    · simp only [List.map_cons, List.filter_cons, h, if_true, ih]
    · simp only [List.map_cons, List.filter_cons, h, if_false, ih,
        bool_eq_false_of_ne_true h]
      simp [bool_eq_false_of_ne_true h, ih]

/-- C4 (confirmed): `crawl` is exactly the filtered enumeration of the files
below the root — under a well-formed tree (distinct, separator-free sibling
names) it returns each matching file path exactly once (no duplicates), no
non-matching path, and for a non-directory root it returns `[root]` iff the
root passes the filter (always, when no filter is given). -/
theorem C4_crawl_correct (filt : Option (JStr → Bool)) (n : FsNode) (root : JStr)
    (hw : wfNode n = true) :
    crawl filt n root = ((filesUnder n root).map (·.1)).filter (passes filt) ∧
    (crawl filt n root).Nodup ∧
    (∀ p, p ∈ crawl filt n root ↔
      p ∈ (filesUnder n root).map (·.1) ∧ passes filt p = true) ∧
    (∀ c, n = .file c → crawl filt n root = if passes filt root then [root] else []) := by
  have heq := crawl_eq_filter filt n root
  have hsub : List.Sublist
      (((filesUnder n root).filter (fun pc => passes filt pc.1)).map (·.1))
      ((filesUnder n root).map (·.1)) :=
    List.Sublist.map _ (List.filter_sublist _)
  refine ⟨by rw [heq, filter_map_fst], ?_, ?_, ?_⟩
  · rw [heq]
    exact List.Nodup.sublist hsub (filesUnder_nodup n hw root)
  · intro p
    rw [heq]
    constructor
    · intro hp
      rcases List.mem_map.mp hp with ⟨pc, hpc, rfl⟩
      rcases List.mem_filter.mp hpc with ⟨hmem, hpass⟩
      exact ⟨List.mem_map_of_mem _ hmem, hpass⟩
    · rintro ⟨hp, hpass⟩
      rcases List.mem_map.mp hp with ⟨pc, hpc, rfl⟩
      exact List.mem_map_of_mem _ (List.mem_filter.mpr ⟨hpc, hpass⟩)
  · intro c hc
    subst hc
    rfl

/-- C4 witness: the theorem applied to a concrete well-formed tree with
markdown files at two depths and one non-matching file. -/
theorem C4_crawl_witness :
    crawl (some isMarkdownPath) exTreeC4 "/r".data =
      ((filesUnder exTreeC4 "/r".data).map (·.1)).filter (passes (some isMarkdownPath)) ∧
    (crawl (some isMarkdownPath) exTreeC4 "/r".data).Nodup :=
  ⟨(C4_crawl_correct (some isMarkdownPath) exTreeC4 "/r".data (by decide)).1,
   (C4_crawl_correct (some isMarkdownPath) exTreeC4 "/r".data (by decide)).2.1⟩

lemma replaceFirst_startsWith (s pat : JStr) (h : startsWithB pat s = true) :
    replaceFirst s pat [] = s.drop pat.length := by
  unfold replaceFirst
  rw [h]
  simp

lemma mem_mapSet (m : List (JStr × Doc)) (k : JStr) (v : Doc) (x : JStr × Doc)
    (hx : x ∈ mapSet m k v) : x ∈ m ∨ x = (k, v) := by
  induction m with
  | nil =>
    rw [show mapSet [] k v = [(k, v)] from rfl] at hx
    exact Or.inr (List.mem_singleton.mp hx)
  | cons p rest ih =>
    obtain ⟨k0, v0⟩ := p
    by_cases h0 : k0 = k
    · rw [mapSet_cons_eq k0 v0 rest k v h0] at hx
      rcases List.mem_cons.mp hx with hx | hx
      · exact Or.inr hx
      · exact Or.inl (List.mem_cons_of_mem _ hx)
    · rw [mapSet_cons_ne k0 v0 rest k v h0] at hx
      rcases List.mem_cons.mp hx with hx | hx
      · exact Or.inl (hx ▸ List.mem_cons_self _ _)
      · rcases ih hx with h | h
        · exact Or.inl (List.mem_cons_of_mem _ h)
        · exact Or.inr h

lemma mem_buildDocs_fold (lib entry : JStr) :
    ∀ (files : List (JStr × JStr)) (m : List (JStr × Doc)) (x : JStr × Doc),
      x ∈ files.foldl
          (fun m f => mapSet m (mkDoc lib entry f.1 f.2).1 (mkDoc lib entry f.1 f.2).2) m →
      x ∈ m ∨ ∃ f ∈ files, x = mkDoc lib entry f.1 f.2 := by
  intro files
  induction files with
  | nil => intro m x hx; exact Or.inl hx
  | cons f fs ih =>
    intro m x hx
    simp only [List.foldl_cons] at hx
    rcases ih _ x hx with h | ⟨f2, hf2, hx2⟩
    · rcases mem_mapSet m _ _ x h with h2 | h2
      · exact Or.inl h2
      · exact Or.inr ⟨f, List.mem_cons_self _ _, by rw [h2]⟩
    · exact Or.inr ⟨f2, List.mem_cons_of_mem _ hf2, hx2⟩

lemma mem_buildDocs (lib entry : JStr) (files : List (JStr × JStr)) (x : JStr × Doc)
    (hx : x ∈ buildDocs lib entry files) : ∃ f ∈ files, x = mkDoc lib entry f.1 f.2 := by
  rcases mem_buildDocs_fold lib entry files [] x hx with h | h
  · simp at h
  · exact h

lemma noSlash_cons (c : Char) (r : JStr) (h : noSlash (c :: r) = true) :
    ¬ c = '/' ∧ noSlash r = true := by
  by_cases hc : c = '/'
  · rw [show noSlash (c :: r) = false by simp [noSlash, hc]] at h
    exact Bool.noConfusion h
  · refine ⟨hc, ?_⟩
    rw [show noSlash (c :: r) = noSlash r by simp [noSlash, hc]] at h
    exact h

lemma noSlash_reverse (s : JStr) (h : noSlash s = true) : noSlash s.reverse = true := by
  rw [noSlash_iff] at *
  intro hm
  exact h (List.mem_reverse.mp hm)

lemma startsWithB_before_sep : ∀ (q a b : JStr), noSlash q = true →
    startsWithB q (a ++ '/' :: b) = true → startsWithB q a = true := by
  intro q
  induction q with
  | nil => intro a b _ _; rfl
  | cons c qs ih =>
    intro a b hq h
    have hc := noSlash_cons c qs hq
    cases a with
    | nil =>
      rw [show ([] : JStr) ++ '/' :: b = '/' :: b from rfl,
          show startsWithB (c :: qs) ('/' :: b) =
            if c = '/' then startsWithB qs b else false from rfl, if_neg hc.1] at h
      exact Bool.noConfusion h
    | cons x xs =>
      rw [show (x :: xs) ++ '/' :: b = x :: (xs ++ '/' :: b) from rfl,
          show startsWithB (c :: qs) (x :: (xs ++ '/' :: b)) =
            if c = x then startsWithB qs (xs ++ '/' :: b) else false from rfl] at h
      by_cases hcx : c = x
      · rw [if_pos hcx] at h
        rw [show startsWithB (c :: qs) (x :: xs) =
            if c = x then startsWithB qs xs else false from rfl, if_pos hcx]
        exact ih xs b hc.2 h
      · rw [if_neg hcx] at h
        exact Bool.noConfusion h

lemma endsWithB_through_sep (e entry path : JStr) (hns : noSlash e = true)
    (h : endsWithB e (entry ++ '/' :: path) = true) : endsWithB e path = true := by
  unfold endsWithB at *
  rw [show (entry ++ '/' :: path).reverse = path.reverse ++ '/' :: entry.reverse by simp] at h
  exact startsWithB_before_sep e.reverse path.reverse entry.reverse (noSlash_reverse e hns) h

lemma isMarkdownPath_through_sep (entry path : JStr)
    (h : isMarkdownPath (entry ++ '/' :: path) = true) : isMarkdownPath path = true := by
  unfold isMarkdownPath at *
  rw [Bool.or_eq_true] at h
  rcases h with h | h
  · rw [endsWithB_through_sep ".md".data entry path (by decide) h]
    rfl
  · rw [endsWithB_through_sep ".mdx".data entry path (by decide) h]
    simp

/-- C10 (confirmed, under the natural proviso that the entry path resolves
to a directory): every entry of the map returned by `getDocs(lib)` has its
key equal to the slug segments joined by `/`, its first slug segment equal
to the library id, and its `path` field equal to the crawled file's path
relative to the entry path with the markdown extension still attached. -/
theorem C10_docset_consistency (remote : Remote) (cfg : Config) (lib : JStr) (p : Params)
    (tree : FsNode) (cs : List FsEntry) (m : List (JStr × Doc))
    (hp : getParams cfg lib = some p)
    (ht : remote p.repo p.branch = some tree)
    (hres : resolvePath tree (p.entry.drop p.gitDir.length) = some (FsNode.dir cs))
    (hm : (getDocs1 remote cfg lib).2 = .ok (some m)) :
    ∀ k d, (k, d) ∈ m →
      k = joinSlash d.slug ∧
      d.slug.head? = some lib ∧
      isMarkdownPath d.path = true ∧
      ∃ f c, (f, c) ∈ filesUnder (FsNode.dir cs) p.entry ∧
        f = p.entry ++ '/' :: d.path ∧ (k, d) = mkDoc lib p.entry f c := by
  intro k d hkd
  have hval : (getDocs1 remote cfg lib).2 = .ok (some (buildDocs lib p.entry
      ((filesUnder (FsNode.dir cs) p.entry).filter (fun pc => isMarkdownPath pc.1)))) := by
    simp only [getDocs1, hp, ht, hres]
  have hmeq : m = buildDocs lib p.entry
      ((filesUnder (FsNode.dir cs) p.entry).filter (fun pc => isMarkdownPath pc.1)) :=
    Option.some.inj (Except.ok.inj (hm.symm.trans hval))
  rw [hmeq] at hkd
  obtain ⟨f, hf, hx⟩ := mem_buildDocs lib p.entry _ (k, d) hkd
  have hfmem : f ∈ filesUnder (FsNode.dir cs) p.entry := (List.mem_filter.mp hf).1
  have hfmd : isMarkdownPath f.1 = true := by
    have := (List.mem_filter.mp hf).2
    simpa using this
  obtain ⟨r, hr⟩ := filesUnderList_shape cs p.entry f
    (by rw [show filesUnder (FsNode.dir cs) p.entry = filesUnderList cs p.entry from rfl]
          at hfmem
        exact hfmem)
  have hk : k = (mkDoc lib p.entry f.1 f.2).1 := congrArg Prod.fst hx
  have hd : d = (mkDoc lib p.entry f.1 f.2).2 := congrArg Prod.snd hx
  have hpath : d.path = r := by
    rw [hd]
    show replaceFirst f.1 (p.entry ++ "/".data) [] = r
    have hpre : startsWithB (p.entry ++ "/".data) f.1 = true :=
      (startsWithB_iff (p.entry ++ "/".data) f.1).mpr
        ⟨r, by rw [hr]; simp⟩
    rw [replaceFirst_startsWith f.1 (p.entry ++ "/".data) hpre, hr,
        show p.entry ++ '/' :: r = (p.entry ++ "/".data) ++ r by simp, dropLen_append]
  refine ⟨?_, ?_, ?_, f.1, f.2, hfmem, by rw [hpath, ← hr], by rw [hx]⟩
  · rw [hk, hd]
    rfl
  · rw [hd]
    rfl
  · rw [hpath]
    have : isMarkdownPath (p.entry ++ '/' :: r) = true := by rw [← hr]; exact hfmd
    exact isMarkdownPath_through_sep p.entry r this

/-- C10 witness: the theorem applied to the concrete single-file scenario,
instantiated at its one map entry. -/
theorem C10_witness :
    "a/intro".data = joinSlash docC10.slug ∧
    docC10.slug.head? = some "a".data ∧
    isMarkdownPath docC10.path = true ∧
    ∃ f c, (f, c) ∈ filesUnder (FsNode.dir csC10) "/o-r-main".data ∧
      f = "/o-r-main".data ++ '/' :: docC10.path ∧
      ("a/intro".data, docC10) = mkDoc "a".data "/o-r-main".data f c :=
  C10_docset_consistency remC3 cfgC3 "a".data
    ⟨"o/r".data, "main".data, "/o-r-main".data, "/o-r-main".data⟩
    (FsNode.dir csC10) csC10 [("a/intro".data, docC10)]
    (by decide) rfl rfl rfl "a/intro".data docC10 (List.mem_singleton.mpr rfl)
